import Mathlib

/-!
Verification development for the juststore path-addressed reactive store
(src/impl.ts, src/kv_store.ts, src/stable_keys.ts, src/local_storage.ts).

The embedding models JavaScript plain data (the store only ever holds
JSON-like data in the verified scenarios; class instances, for which
`isEqual` falls back to reference equality, are outside the modelled
fragment, so `isClass` is constantly false and `isEqual` is exactly
react-fast-compare's structural comparison).  JavaScript `undefined` is a
first-class `Value.undef`; array holes read back as `undef`, mirroring JS.

The WeakMap-based external key order side table of stable_keys.ts is
identity-keyed in JS; in this pure model the order record travels with the
object value itself (`Value.obj entries order`).  This is faithful because
the code explicitly propagates the record across every shallow copy
(setNestedValue) and installs it on every freshly built object (rename),
and `getStableKeys`'s write-back to the table is idempotent, hence
unobservable for a read-only model.

JavaScript string operations (`split('.')`, `indexOf('.')`, `slice`,
`endsWith`) are modelled by explicit character-list functions so that all
terms reduce inside the kernel.
-/

namespace JustStore

/-! JavaScript-style string helpers (all keys in scope are ASCII, so the
UTF-16 length used by JS `slice`/`length` coincides with character count). -/

/-- Split a string at every '.' character, exactly like JS `s.split('.')`
(the result always has at least one element; empty segments are kept). -/
def splitCharAux : List Char → List Char → List String
  | [], acc => [String.mk acc.reverse]
  | c :: rest, acc =>
    if c = '.' then String.mk acc.reverse :: splitCharAux rest []
    else splitCharAux rest (c :: acc)

def splitDots (s : String) : List String := splitCharAux s.toList []

/-- Join segments with '.', the inverse of `splitDots`; used to model
`key.slice(index + 1)` after splitting at the first dot. -/
def joinDots : List String → String
  | [] => ""
  | [x] => x
  | x :: rest => x ++ "." ++ joinDots rest

def lastSeg : List String → String
  | [] => ""
  | [x] => x
  | _ :: x :: rest => lastSeg (x :: rest)

/-- Character-count based `s.slice(n)` (JS). -/
def sDrop (s : String) (n : Nat) : String := String.mk (s.toList.drop n)

/-- Character-count based `s.slice(0, s.length - n)` (JS). -/
def sDropRight (s : String) (n : Nat) : String :=
  String.mk (s.toList.take (s.toList.length - n))

def sLen (s : String) : Nat := s.toList.length

/-- JS `s.endsWith(suffix)`. -/
def sEndsWith (s suf : String) : Bool := List.isSuffixOf suf.toList s.toList

/-- Numeric value of a digit string (garbage on non-digits; such strings are
rejected by the canonicity test in `parseArrayIndex` anyway). -/
def natOfDigits : List Char → Nat
  | [] => 0
  | c :: rest => natOfDigitsAux (c.toNat - 48) rest
where natOfDigitsAux (acc : Nat) : List Char → Nat
  | [] => acc
  | c :: rest => natOfDigitsAux (acc * 10 + (c.toNat - 48)) rest

/-- The strict array-index test of impl.ts (`/^(0|[1-9]\d*)$/` followed by
`Number(segment)`): a string is accepted iff it is the canonical decimal
numeral of its value — nonempty, all digits, no leading zero except "0"
itself.  That is equivalent to `Nat.repr (natOfDigits s) = s`: any string
equal to a `Nat.repr` output is a canonical numeral, and conversely. -/
def parseArrayIndex (s : String) : Option Nat :=
  let n := natOfDigits s.toList
  if Nat.repr n = s then some n else none

/-! The value model. -/

inductive Value where
  | undef
  | null
  | bool (b : Bool)
  | num (n : Int)
  | str (s : String)
  | arr (elems : List Value)
  | obj (entries : List (String × Value)) (order : Option (List String))
deriving Repr

def Value.isUndef : Value → Bool
  | .undef => true
  | _ => false

def Value.isNull : Value → Bool
  | .null => true
  | _ => false

/-- JS `v !== null && v !== undefined && typeof v !== 'object'`. -/
def Value.isScalar : Value → Bool
  | .bool _ => true
  | .num _ => true
  | .str _ => true
  | _ => false

def Value.isContainer : Value → Bool
  | .arr _ => true
  | .obj _ _ => true
  | _ => false

/-! Plain-object primitives.  JS objects have unique keys; `objSetEntry`
keeps the position of an overwritten key and appends new keys, matching JS
property insertion order for string keys (integer-like keys are reordered
only at enumeration time, which `jsKeys` models). -/

def objGet : List (String × Value) → String → Value
  | [], _ => .undef
  | (k', v) :: rest, k => if k' = k then v else objGet rest k

def hasEntry : List (String × Value) → String → Bool
  | [], _ => false
  | (k', _) :: rest, k => if k' = k then true else hasEntry rest k

def objSetEntry : List (String × Value) → String → Value → List (String × Value)
  | [], k, v => [(k, v)]
  | (k', v') :: rest, k, v =>
    if k' = k then (k, v) :: rest else (k', v') :: objSetEntry rest k v

def objDeleteEntry : List (String × Value) → String → List (String × Value)
  | [], _ => []
  | (k', v') :: rest, k =>
    if k' = k then objDeleteEntry rest k else (k', v') :: objDeleteEntry rest k

/-! Array primitives.  JS assignment `a[i] = v` pads with holes (which read
back as `undefined`); `splice(i, 1)` removes the element when in range. -/

def arrGet : List Value → Nat → Value
  | [], _ => .undef
  | x :: _, 0 => x
  | _ :: rest, n + 1 => arrGet rest n

def arrSet : List Value → Nat → Value → List Value
  | _ :: rest, 0, v => v :: rest
  | x :: rest, n + 1, v => x :: arrSet rest n v
  | [], 0, v => [v]
  | [], n + 1, v => .undef :: arrSet [] n v

def arrSplice : List Value → Nat → List Value
  | [], _ => []
  | _ :: rest, 0 => rest
  | x :: rest, n + 1 => x :: arrSplice rest n

/-- JS own-property enumeration order of a plain object: integer-like keys
in ascending numeric order first, then string keys in insertion order. -/
def insertCanon (k : String) : List String → List String
  | [] => [k]
  | k' :: rest =>
    if (parseArrayIndex k).getD 0 ≤ (parseArrayIndex k').getD 0 then k :: k' :: rest
    else k' :: insertCanon k rest

def sortCanon : List String → List String
  | [] => []
  | k :: rest => insertCanon k (sortCanon rest)

def jsKeys (es : List (String × Value)) : List String :=
  let ks := es.map Prod.fst
  sortCanon (ks.filter (fun k => (parseArrayIndex k).isSome)) ++
    ks.filter (fun k => (parseArrayIndex k).isNone)

/-! Equality: react-fast-compare on the plain-data fragment.  Arrays compare
by length and position; objects compare by key count plus per-key lookup
(insertion order is irrelevant); the key-order side record is metadata, not
data, so it is ignored. -/

mutual

def isEqual : Value → Value → Bool
  | .undef, .undef => true
  | .null, .null => true
  | .bool a, .bool b => a == b
  | .num a, .num b => a == b
  | .str a, .str b => a == b
  | .arr xs, .arr ys => isEqualList xs ys
  | .obj es _, .obj fs _ => es.length == fs.length && isEqualFields es fs
  | _, _ => false

def isEqualList : List Value → List Value → Bool
  | [], [] => true
  | x :: xs, y :: ys => isEqual x y && isEqualList xs ys
  | _, _ => false

def isEqualFields : List (String × Value) → List (String × Value) → Bool
  | [], _ => true
  | (k, v) :: rest, fs =>
    (if hasEntry fs k then isEqual v (objGet fs k) else false) && isEqualFields rest fs

end

/-! stable_keys.ts -/

/-- getStableKeys of stable_keys.ts: non-records give []; with a recorded
order, keep the recorded keys still present, then append untracked keys in
enumeration order; without a record, the enumeration order itself.  (The
code also persists the corrected record back into the side table; that
write-back is idempotent and unobservable to a reader, so the model is
read-only.) -/
def getStableKeys : Value → List String
  | .obj es (some order) =>
    let next := order.filter (fun k => hasEntry es k)
    next ++ (jsKeys es).filter (fun k => ¬ next.contains k)
  | .obj es none => jsKeys es
  | _ => []

/-! Path algebra of impl.ts. -/

/-- getNamespace: the part of the key before the first dot (the whole key
when it has no dot). -/
def getNamespace (key : String) : String := (splitDots key).headD key

def joinPath (ns : String) (path : String) : String :=
  if path = "" then ns else ns ++ "." ++ path

def joinChildKey (parent child : String) : String :=
  if parent = "" then child else parent ++ "." ++ child

/-- getKeyPrefixes of impl.ts, verbatim: after `[first, ...parts] =
key.split('.')`, the loop `for (i = 1; i < parts.length - 1; i++)` extends
`current` (initially `first`) by `parts[i]` and pushes it, and finally
`first` is unshifted.  Note the loop starts at index 1 of `parts`, i.e. at
the SECOND segment after the namespace. -/
def prefixAccum (current : String) : List String → List String
  | [] => []
  | p :: rest =>
    let c := current ++ "." ++ p
    c :: prefixAccum c rest

def getKeyPrefixes (key : String) : List String :=
  match splitDots key with
  | [] => []
  | [_] => []
  | first :: parts => first :: prefixAccum first ((parts.drop 1).take (parts.length - 2))

def isVirtualKey (key : String) : Bool :=
  sEndsWith key ".__juststore_keys" || key = "__juststore_keys"

/-! getNestedValue. -/

def getSegs : Value → List String → Value
  | cur, [] => cur
  | cur, seg :: rest =>
    match cur with
    | .arr xs =>
      match parseArrayIndex seg with
      | none => .undef
      | some i => getSegs (arrGet xs i) rest
    | .obj es _ => getSegs (objGet es seg) rest
    | _ => .undef

def getNestedValue (root : Value) (path : String) : Value :=
  if path = "" then root else getSegs root (splitDots path)

/-! setNestedValue.  The imperative loop shallow-copies each container on
the walk, attaches the copy into its (already attached) parent and then
mutates it; functionally that is exactly reattaching the recursively
updated child.  Shallow-copying a pure value is the identity (the object
copy carries the key-order record over, which `Value.obj` already does).
When the walk meets an array whose current segment is not a canonical
index, the loop `break`s and the FINAL segment is applied to that array. -/

def freshOrCopy (existing : Value) (nextIsIndex : Bool) : Value :=
  match existing with
  | .arr xs => .arr xs
  | .obj es o => .obj es o
  | _ => if nextIsIndex then .arr [] else .obj [] none

def copyRoot : Value → Value
  | .undef => .obj [] none
  | .null => .obj [] none
  | .arr xs => .arr xs
  | .obj es o => .obj es o
  | other => other

def applyLast (cur : Value) (last : String) (v : Value) : Value :=
  match cur with
  | .arr xs =>
    match parseArrayIndex last with
    | none => .arr xs
    | some i => if v.isUndef then .arr (arrSplice xs i) else .arr (arrSet xs i v)
  | .obj es o =>
    if v.isUndef then
      .obj (objDeleteEntry es last)
        (if hasEntry es last then
          (match o with
           | some order => some (order.filter (fun k => ¬ k = last))
           | none => none)
         else o)
    else
      .obj (objSetEntry es last v)
        (if hasEntry es last then o
         else
          (match o with
           | some order => some (order ++ [last])
           | none => none))
  | _ => cur

def setWalk (cur : Value) : List String → Value → Value
  | [], _ => cur
  | [last], v => applyLast cur last v
  | seg :: next :: rest, v =>
    match cur with
    | .arr xs =>
      match parseArrayIndex seg with
      | none => applyLast (.arr xs) (lastSeg (next :: rest)) v
      | some i =>
        let child := freshOrCopy (arrGet xs i) (parseArrayIndex next).isSome
        .arr (arrSet xs i (setWalk child (next :: rest) v))
    | .obj es o =>
      let child := freshOrCopy (objGet es seg) (parseArrayIndex next).isSome
      .obj (objSetEntry es seg (setWalk child (next :: rest) v)) o
    | _ => cur

def setNestedValue (root : Value) (path : String) (value : Value) : Value :=
  if path = "" then value
  else if root.isScalar then root
  else setWalk (copyRoot root) (splitDots path) value

/-! Association-list maps standing in for the JS `Map`s (Map.set keeps the
position of an existing key and appends a new one). -/

def mapGet {β : Type} : List (String × β) → String → Option β
  | [], _ => none
  | (k', v) :: rest, k => if k' = k then some v else mapGet rest k

def mapHas {β : Type} (m : List (String × β)) (k : String) : Bool :=
  (mapGet m k).isSome

def mapSet {β : Type} : List (String × β) → String → β → List (String × β)
  | [], k, v => [(k, v)]
  | (k', v') :: rest, k, v =>
    if k' = k then (k, v) :: rest else (k', v') :: mapSet rest k v

def mapDelete {β : Type} : List (String × β) → String → List (String × β)
  | [], _ => []
  | (k', v') :: rest, k =>
    if k' = k then mapDelete rest k else (k', v') :: mapDelete rest k

/-! The module-level mutable state of impl.ts / kv_store.ts.  Both KVStore
instances (`store`, memoryOnly = false, and `memoryStore`, memoryOnly =
true) are constructed over the SAME `inMemStorage` map, so the state has a
single `inMem` field and every store operation takes the instance's
`memoryOnly` flag.  `window` models `typeof window !== 'undefined'`;
`outbox` records messages posted on the broadcast channel (both instances
share the one channel); `localStore` models localStorage with JSON
(de)serialisation as the identity on this plain-data fragment.  Listener
callbacks are modelled by numeric identities; an operation returns the list
of listener identities invoked, in invocation order. -/

structure BMsg where
  mtype : Option String
  key : Option String
  value : Value
deriving Repr

structure St where
  inMem : List (String × Value)
  localStore : List (String × Value)
  window : Bool
  listeners : List (String × List Nat)
  descIndex : List (String × List String)
  virtualRev : List (String × Nat)
  outbox : List BMsg
deriving Repr

/-! local_storage.ts (all operations are silent no-ops without a window). -/

def localStorageGet (st : St) (key : String) : Option Value :=
  if st.window then mapGet st.localStore key else none

def localStorageSet (st : St) (key : String) (v : Value) : St :=
  if st.window then
    if v.isUndef then { st with localStore := mapDelete st.localStore key }
    else { st with localStore := mapSet st.localStore key v }
  else st

def localStorageDelete (st : St) (key : String) : St :=
  if st.window then { st with localStore := mapDelete st.localStore key } else st

/-- JS nullish coalescing `a ?? b` on optional store values (skips both
`undefined` and `null`). -/
def nullishOr (a b : Option Value) : Option Value :=
  match a with
  | some v => if v.isUndef || v.isNull then b else some v
  | none => b

/-- splitNSPath of kv_store.ts: namespace before the first dot, remainder
after it (computed here by splitting and rejoining, which equals slicing at
the first dot). -/
def splitNSPath (key : String) : String × String :=
  match splitDots key with
  | [] => (key, "")
  | [x] => (x, "")
  | x :: rest => (x, joinDots rest)

/-! KVStore methods.  `kvGet` caches a localStorage hit back into the
shared map, so it returns the possibly updated state. -/

def kvGet (st : St) (memoryOnly : Bool) (key : String) : St × Value :=
  let ns := (splitNSPath key).1
  let path := (splitNSPath key).2
  if mapHas st.inMem ns then
    let rv := (mapGet st.inMem ns).getD .undef
    (st, if path = "" then rv else getNestedValue rv path)
  else if !memoryOnly && st.window then
    match localStorageGet st ns with
    | some rv =>
      ({ st with inMem := mapSet st.inMem ns rv },
        if path = "" then rv else getNestedValue rv path)
    | none => (st, .undef)
  else (st, .undef)

def kvDelete (st : St) (memoryOnly : Bool) (key : String) : St :=
  let ns := (splitNSPath key).1
  let path := (splitNSPath key).2
  if path = "" then
    let st1 := { st with inMem := mapDelete st.inMem ns }
    if !memoryOnly && st1.window then
      let st2 := localStorageDelete st1 ns
      { st2 with outbox := st2.outbox ++ [⟨some "delete", some ns, .undef⟩] }
    else st1
  else
    match nullishOr (mapGet st.inMem ns) (localStorageGet st ns) with
    | none => st
    | some currentRoot =>
      let updatedRoot := setNestedValue currentRoot path .undef
      let st1 := { st with inMem := mapSet st.inMem ns updatedRoot }
      if !memoryOnly && st1.window then
        let st2 := localStorageSet st1 ns updatedRoot
        { st2 with outbox := st2.outbox ++ [⟨some "set", some ns, updatedRoot⟩] }
      else st1

def kvSet (st : St) (memoryOnly : Bool) (key : String) (v : Value) : St :=
  if v.isUndef then kvDelete st memoryOnly key
  else
    let ns := (splitNSPath key).1
    let path := (splitNSPath key).2
    let rootValue :=
      if path = "" then v
      else
        let currentRoot :=
          (nullishOr (mapGet st.inMem ns)
            (nullishOr (localStorageGet st ns) (some (.obj [] none)))).getD (.obj [] none)
        setNestedValue currentRoot path v
    let st1 := { st with inMem := mapSet st.inMem ns rootValue }
    if !memoryOnly && st1.window then
      let st2 := localStorageSet st1 ns rootValue
      { st2 with outbox := st2.outbox ++ [⟨some "set", some ns, rootValue⟩] }
    else st1

/-! Snapshot layer of impl.ts. -/

def getSnapshot (st : St) (key : String) (memoryOnly : Bool) : St × Value :=
  if isVirtualKey key then
    (st, .num (Int.ofNat ((mapGet st.virtualRev key).getD 0)))
  else kvGet st memoryOnly key

/-- updateSnapshot dispatches to `memoryStore.set` or `store.set`; the two
instances share all state and differ only in the memoryOnly flag. -/
def updateSnapshot (st : St) (key : String) (v : Value) (memoryOnly : Bool) : St :=
  kvSet st memoryOnly key v

/-! Notification engine. -/

def fireSet (st : St) (key : String) : List Nat := (mapGet st.listeners key).getD []

def bumpVirtual (st : St) (vk : String) : St :=
  { st with virtualRev := mapSet st.virtualRev vk ((mapGet st.virtualRev vk).getD 0 + 1) }

/-- notifyVirtualKey: bump the revision, then re-enter notifyListeners with
skipRoot = skipChildren = forceNotify = true.  Every call site passes a
virtual key, for which that recursive call skips the virtual-prefix block
(`isVirtualKey` guard) and takes the forced exact-match fast path, i.e. it
fires precisely the listener set registered at the virtual key; the
recursion is inlined here accordingly. -/
def notifyVirtualKey (st : St) (vk : String) : St × List Nat :=
  let st' := bumpVirtual st vk
  (st', fireSet st' vk)

/-- The leading block of notifyListeners: for a non-virtual key, walk
`[...getKeyPrefixes(key), key]` and, wherever the corresponding
`${p}.__juststore_keys` has a nonempty listener set, bump and fire it
unconditionally. -/
def virtualPrefixPass (st : St) (key : String) : St × List Nat :=
  if isVirtualKey key then (st, [])
  else
    (getKeyPrefixes key ++ [key]).foldl
      (fun acc p =>
        let vk := joinChildKey p "__juststore_keys"
        match mapGet acc.1.listeners vk with
        | some ls =>
          if ls.length > 0 then
            let r := notifyVirtualKey acc.1 vk
            (r.1, acc.2 ++ r.2)
          else acc
        | none => acc)
      (st, [])

/-- The descendant block of notifyListeners: every registered key below
`key` (from the reverse index) is checked; virtual descendants diff the
stable key lists at their object path, plain descendants diff the resolved
values; either fires only when forced or changed. -/
def childPass (st : St) (key : String) (oldV newV : Value) (forceNotify : Bool) :
    St × List Nat :=
  ((mapGet st.descIndex key).getD []).foldl
    (fun acc childKey =>
      if isVirtualKey childKey then
        let childPath := sDrop childKey (sLen key + 1)
        let objectPath :=
          if sEndsWith childPath ".__juststore_keys" then
            sDropRight childPath (sLen ".__juststore_keys")
          else ""
        let oldKeys := getStableKeys
          (if objectPath = "" then oldV else getNestedValue oldV objectPath)
        let newKeys := getStableKeys
          (if objectPath = "" then newV else getNestedValue newV objectPath)
        if forceNotify || ¬ oldKeys = newKeys then
          let r := notifyVirtualKey acc.1 childKey
          (r.1, acc.2 ++ r.2)
        else acc
      else
        let childPath := sDrop childKey (sLen key + 1)
        if forceNotify ||
            ¬ isEqual (getNestedValue oldV childPath) (getNestedValue newV childPath) then
          (acc.1, acc.2 ++ fireSet acc.1 childKey)
        else acc)
    (st, [])

/-- notifyListeners of impl.ts: the virtual-prefix pass always runs first;
with both skips set, only exact listeners fire, gated by equality unless
forced; otherwise exact listeners fire unconditionally, then (unless
skipRoot) the namespace set and every entry of getKeyPrefixes other than
the namespace, then (unless skipChildren) the descendant pass. -/
def notifyListeners (st : St) (key : String) (oldV newV : Value)
    (skipRoot skipChildren forceNotify : Bool) : St × List Nat :=
  let vp := virtualPrefixPass st key
  let st1 := vp.1
  if skipRoot && skipChildren then
    if !forceNotify && isEqual oldV newV then (st1, vp.2)
    else (st1, vp.2 ++ fireSet st1 key)
  else
    let exact := fireSet st1 key
    let rootF :=
      if !skipRoot then
        let ns := getNamespace key
        fireSet st1 ns ++
          (getKeyPrefixes key).foldl
            (fun acc pfx => if pfx = ns then acc else acc ++ fireSet st1 pfx) []
      else []
    let cp := if !skipChildren then childPass st1 key oldV newV forceNotify else (st1, [])
    (cp.1, vp.2 ++ exact ++ rootF ++ cp.2)

/-- subscribe: register the listener under the key and record the key in
the reverse descendant index under every entry of getKeyPrefixes. -/
def subscribe (st : St) (key : String) (id : Nat) : St :=
  let ls := (mapGet st.listeners key).getD []
  let ls' := if ls.contains id then ls else ls ++ [id]
  let st1 := { st with listeners := mapSet st.listeners key ls' }
  (getKeyPrefixes key).foldl
    (fun s pfx =>
      let ks := (mapGet s.descIndex pfx).getD []
      let ks' := if ks.contains key then ks else ks ++ [key]
      { s with descIndex := mapSet s.descIndex pfx ks' })
    st1

/-- produce of impl.ts: the single governed write path. -/
def produce (st : St) (key : String) (value : Value) (skipUpdate memoryOnly : Bool) :
    St × List Nat :=
  if skipUpdate then (updateSnapshot st key value memoryOnly, [])
  else
    let r := getSnapshot st key memoryOnly
    if isEqual r.2 value then (r.1, [])
    else
      let st2 := updateSnapshot r.1 key value memoryOnly
      notifyListeners st2 key r.2 value false false false

/-! rename of impl.ts. -/

/-- Object.hasOwn on the modelled fragment (array own properties other than
in-range indices, such as 'length', do not occur in any rename scenario). -/
def hasOwn : Value → String → Bool
  | .obj es _, k => hasEntry es k
  | .arr xs, k =>
    match parseArrayIndex k with
    | some i => i < xs.length
    | none => false
  | _, _ => false

def ownGet : Value → String → Value
  | .obj es _, k => objGet es k
  | .arr xs, k =>
    match parseArrayIndex k with
    | some i => arrGet xs i
    | none => .undef
  | _, _ => .undef

def renameEntries (current : Value) (oldKey newKey : String) :
    List String → List (String × Value)
  | [] => []
  | k :: rest =>
    if ¬ hasOwn current k then renameEntries current oldKey newKey rest
    else if k = oldKey then
      (newKey, ownGet current oldKey) :: renameEntries current oldKey newKey rest
    else (k, ownGet current k) :: renameEntries current oldKey newKey rest

/-- Object.fromEntries: build by sequential property insertion (a duplicate
key keeps its first position and takes the later value). -/
def fromEntries (entries : List (String × Value)) : List (String × Value) :=
  entries.foldl (fun acc e => objSetEntry acc e.1 e.2) []

/-- Array.from(new Set(xs)): first occurrences, in order. -/
def dedupAux (seen : List String) : List String → List String
  | [] => []
  | k :: rest =>
    if seen.contains k then dedupAux seen rest else k :: dedupAux (k :: seen) rest

def dedupKeys (xs : List String) : List String := dedupAux [] xs

/-- rename of impl.ts.  In the source the key-order record of the freshly
built object is installed into the side table right after updateSnapshot;
since the snapshot holds the very same object, attaching the record to the
value before storing is observably identical. -/
def rename (st : St) (path oldKey newKey : String) (memoryOnly : Bool) : St × List Nat :=
  let r := getSnapshot st path memoryOnly
  let st1 := r.1
  let current := r.2
  if !current.isContainer then
    let next := Value.obj [(newKey, .undef)] (some [newKey])
    let st2 := updateSnapshot st1 path next memoryOnly
    notifyListeners st2 path current next false false false
  else if oldKey = newKey then (st1, [])
  else if ¬ hasOwn current oldKey then (st1, [])
  else
    let entries := renameEntries current oldKey newKey (getStableKeys current)
    let newObject := Value.obj (fromEntries entries) (some (dedupKeys (entries.map Prod.fst)))
    let st2 := updateSnapshot st1 path newObject memoryOnly
    notifyListeners st2 path current newObject false false false

/-- The BroadcastChannel message handler of impl.ts (lines 652-668): bail
out when the key field is falsy; apply 'delete'/'set' to the memory store;
any other type leaves the store untouched; then ALWAYS run notifyListeners
with the pre-message root value and the message's value (undefined for
'delete') as the new root. -/
def onBroadcastMessage (st : St) (msg : BMsg) : St × List Nat :=
  match msg.key with
  | none => (st, [])
  | some key =>
    if key = "" then (st, [])
    else
      let r := kvGet st true key
      let st1 := r.1
      let oldRoot := r.2
      let st2 :=
        if msg.mtype = some "delete" then kvDelete st1 true key
        else if msg.mtype = some "set" then kvSet st1 true key msg.value
        else st1
      let newRoot := if msg.mtype = some "delete" then Value.undef else msg.value
      notifyListeners st2 key oldRoot newRoot false false false

/-! Auxiliary predicates used to state the scope of the path round-trip and
structural-sharing properties, mirroring the walk of `setWalk`. -/

/-- The copy-on-write walk of setNestedValue lands the write: every array
met before the final segment is indexed by a canonical numeral (otherwise
the loop breaks and applies the final segment to that array), and the final
container accepts the operation — objects always do; arrays only for a
canonical index, and only for assignment (`isDel = false`), because
deleting from an array splices, shifting later elements. -/
def writeOkWalk : Value → List String → Bool → Bool
  | _, [], _ => false
  | cur, [last], isDel =>
    (match cur with
     | .arr _ => !isDel && (parseArrayIndex last).isSome
     | .obj _ _ => true
     | _ => false)
  | cur, seg :: next :: rest, isDel =>
    (match cur with
     | .arr xs =>
       (match parseArrayIndex seg with
        | none => false
        | some i =>
          writeOkWalk (freshOrCopy (arrGet xs i) (parseArrayIndex next).isSome)
            (next :: rest) isDel)
     | .obj es _ =>
       writeOkWalk (freshOrCopy (objGet es seg) (parseArrayIndex next).isSome)
         (next :: rest) isDel
     | _ => false)

def writeOk (root : Value) (path : String) (isDel : Bool) : Bool :=
  !root.isScalar && writeOkWalk (copyRoot root) (splitDots path) isDel

/-- Two segment lists head off into disjoint branches: they agree on a
(possibly empty) common prefix and then differ, both still nonempty at the
point of difference. -/
def divergeSegs : List String → List String → Bool
  | p :: ps, q :: qs => if p = q then divergeSegs ps qs else true
  | _, _ => false

/-- Relation between states that differ at most in the virtual revision
counters: everything the notification pass leaves untouched. -/
def sameExceptRev (a b : St) : Prop :=
  b.inMem = a.inMem ∧ b.localStore = a.localStore ∧ b.window = a.window ∧
    b.listeners = a.listeners ∧ b.descIndex = a.descIndex ∧ b.outbox = a.outbox

/-! Concrete scenario states used by individual claims. -/

def emptySt : St := ⟨[], [], false, [], [], [], []⟩

def c2State : St :=
  subscribe { emptySt with inMem := [("ns", .obj [("a", .obj [("b", .num 1)] none)] none)] }
    "ns.a" 0

def c3Root : Value :=
  .obj [("x", .obj [("c", .obj [("d", .num 0)] none)] none), ("c", .num 5), ("b", .num 10)]
    none

def c3State : St :=
  subscribe (subscribe (subscribe { emptySt with inMem := [("a", c3Root)] } "a" 0) "a.b" 1)
    "a.c" 2

def c4State : St :=
  subscribe { emptySt with inMem := [("a", .obj [("b", .num 1)] none)] }
    "a.__juststore_keys" 0

def c4ValueState (b : Value) : St :=
  subscribe { emptySt with inMem := [("a", .obj [("b", b)] none)] } "a.__juststore_keys" 0

def c4AncestorState (rootOld : Value) : St :=
  subscribe { emptySt with inMem := [("a", rootOld)] } "a.b.__juststore_keys" 7

def c7Obj : Value :=
  .obj [("a", .num 0), ("1", .num 1), ("2", .num 2), ("3", .num 3), ("e", .num 4)]
    (some ["a", "1", "2", "3", "e"])

def c7St1 : St := (produce emptySt "obj" c7Obj false true).1

def c7St2 : St := (rename c7St1 "obj" "2" "5" true).1

def c7St3 : St := (rename c7St2 "obj" "5" "2" true).1

def c8State : St := subscribe { emptySt with inMem := [("ns", .num 1)] } "ns" 0

/-! Supporting lemmas. -/

theorem Value.eq_undef_of_isUndef {v : Value} (h : v.isUndef = true) : v = .undef := by
  cases v <;> simp_all [Value.isUndef]

theorem objGet_setEntry_self (es : List (String × Value)) (k : String) (v : Value) :
    objGet (objSetEntry es k v) k = v := by
  induction es with
  | nil => simp [objGet, objSetEntry]
  | cons e rest ih =>
    obtain ⟨k', v'⟩ := e
    by_cases h : k' = k <;> simp [objGet, objSetEntry, h, ih]

theorem objGet_setEntry_ne (es : List (String × Value)) {k k' : String} (v : Value)
    (h : ¬ k' = k) : objGet (objSetEntry es k v) k' = objGet es k' := by
  have h' : ¬ k = k' := fun hh => h hh.symm
  induction es with
  | nil => simp [objGet, objSetEntry, h']
  | cons e rest ih =>
    obtain ⟨k'', v''⟩ := e
    by_cases h2 : k'' = k
    · subst h2
      simp [objGet, objSetEntry, h']
    · by_cases h3 : k'' = k' <;> simp [objGet, objSetEntry, h, h', h2, h3, ih]

theorem objGet_deleteEntry_self (es : List (String × Value)) (k : String) :
    objGet (objDeleteEntry es k) k = .undef := by
  induction es with
  | nil => simp [objGet, objDeleteEntry]
  | cons e rest ih =>
    obtain ⟨k', v'⟩ := e
    by_cases h : k' = k <;> simp [objGet, objDeleteEntry, h, ih]

theorem objGet_deleteEntry_ne (es : List (String × Value)) {k k' : String}
    (h : ¬ k' = k) : objGet (objDeleteEntry es k) k' = objGet es k' := by
  induction es with
  | nil => simp [objGet, objDeleteEntry]
  | cons e rest ih =>
    obtain ⟨k'', v''⟩ := e
    by_cases h2 : k'' = k <;> by_cases h3 : k'' = k' <;>
      simp_all [objGet, objDeleteEntry]

theorem arrGet_arrSet_self (xs : List Value) (i : Nat) (v : Value) :
    arrGet (arrSet xs i v) i = v := by
  induction xs generalizing i with
  | nil =>
    induction i with
    | zero => simp [arrGet, arrSet]
    | succ n ih => simpa [arrGet, arrSet] using ih
  | cons x rest ih =>
    cases i with
    | zero => simp [arrGet, arrSet]
    | succ n => simpa [arrGet, arrSet] using ih n

theorem arrSet_nil_pad (i : Nat) (v : Value) :
    arrSet [] (i + 1) v = .undef :: arrSet [] i v := rfl

theorem arrGet_arrSet_ne (xs : List Value) {i j : Nat} (v : Value) (h : ¬ j = i) :
    arrGet (arrSet xs i v) j = arrGet xs j := by
  induction xs generalizing i j with
  | nil =>
    induction i generalizing j with
    | zero =>
      cases j with
      | zero => exact absurd rfl h
      | succ m => simp [arrGet, arrSet]
    | succ n ih =>
      cases j with
      | zero => simp [arrGet, arrSet]
      | succ m =>
        have hm : ¬ m = n := by omega
        have := ih (j := m) hm
        simpa [arrGet, arrSet] using this
  | cons x rest ih =>
    cases i with
    | zero =>
      cases j with
      | zero => exact absurd rfl h
      | succ m => simp [arrGet, arrSet]
    | succ n =>
      cases j with
      | zero => simp [arrGet, arrSet]
      | succ m =>
        have hm : ¬ m = n := by omega
        have := ih (i := n) (j := m) hm
        simpa [arrGet, arrSet] using this

theorem parseArrayIndex_repr {s : String} {i : Nat} (h : parseArrayIndex s = some i) :
    s = Nat.repr i := by
  unfold parseArrayIndex at h
  simp only at h
  split at h
  · cases h
    exact (‹Nat.repr _ = s›).symm
  · cases h

theorem parseArrayIndex_inj {s t : String} {i : Nat}
    (hs : parseArrayIndex s = some i) (ht : parseArrayIndex t = some i) : s = t := by
  rw [parseArrayIndex_repr hs, parseArrayIndex_repr ht]

theorem freshOrCopy_isContainer (e : Value) (b : Bool) :
    (freshOrCopy e b).isContainer = true := by
  cases e <;> cases b <;> simp [freshOrCopy, Value.isContainer]

theorem copyRoot_isContainer {root : Value} (h : root.isScalar = false) :
    (copyRoot root).isContainer = true := by
  cases root <;> simp_all [copyRoot, Value.isScalar, Value.isContainer]

theorem getSegs_undef (segs : List String) : getSegs .undef segs = .undef := by
  cases segs <;> rfl

theorem getSegs_nonContainer {v : Value} (h : v.isContainer = false) (s : String)
    (rest : List String) : getSegs v (s :: rest) = .undef := by
  cases v <;> simp_all [getSegs, Value.isContainer]

theorem getSegs_objGet_nil (s : String) (rest : List String) (o : Option (List String)) :
    getSegs (.obj [] o) (s :: rest) = .undef := by
  simp [getSegs, objGet, getSegs_undef]

theorem getSegs_arr_nil (s : String) (rest : List String) :
    getSegs (.arr []) (s :: rest) = .undef := by
  unfold getSegs
  cases h : parseArrayIndex s
  · rfl
  · simp [arrGet, getSegs_undef]

theorem getSegs_freshOrCopy_flat {e : Value} (he : e.isContainer = false) (b : Bool)
    (s : String) (rest : List String) :
    getSegs (freshOrCopy e b) (s :: rest) = .undef := by
  cases e <;> cases b <;>
    simp_all [freshOrCopy, Value.isContainer, getSegs_objGet_nil, getSegs_arr_nil]

theorem divergeSegs_nonempty {ps qs : List String} (h : divergeSegs ps qs = true) :
    ps ≠ [] ∧ qs ≠ [] := by
  cases ps <;> cases qs <;> simp_all [divergeSegs]

theorem freshOrCopy_container_id {e : Value} (h : e.isContainer = true) (b : Bool) :
    freshOrCopy e b = e := by
  cases e <;> simp_all [freshOrCopy, Value.isContainer]

theorem getSegs_nil (cur : Value) : getSegs cur [] = cur := rfl

theorem getSegs_obj_cons (es : List (String × Value)) (o : Option (List String))
    (s : String) (rest : List String) :
    getSegs (.obj es o) (s :: rest) = getSegs (objGet es s) rest := rfl

theorem getSegs_arr_some {s : String} {i : Nat} (h : parseArrayIndex s = some i)
    (xs : List Value) (rest : List String) :
    getSegs (.arr xs) (s :: rest) = getSegs (arrGet xs i) rest := by
  simp [getSegs, h]

theorem getSegs_arr_none {s : String} (h : parseArrayIndex s = none)
    (xs : List Value) (rest : List String) :
    getSegs (.arr xs) (s :: rest) = .undef := by
  simp [getSegs, h]

theorem setWalk_last (cur : Value) (last : String) (v : Value) :
    setWalk cur [last] v = applyLast cur last v := rfl

theorem setWalk_obj_cons (es : List (String × Value)) (o : Option (List String))
    (seg next : String) (rest : List String) (v : Value) :
    setWalk (.obj es o) (seg :: next :: rest) v =
      .obj (objSetEntry es seg
        (setWalk (freshOrCopy (objGet es seg) (parseArrayIndex next).isSome)
          (next :: rest) v)) o := rfl

theorem setWalk_arr_cons_some {seg : String} {i : Nat} (h : parseArrayIndex seg = some i)
    (xs : List Value) (next : String) (rest : List String) (v : Value) :
    setWalk (.arr xs) (seg :: next :: rest) v =
      .arr (arrSet xs i
        (setWalk (freshOrCopy (arrGet xs i) (parseArrayIndex next).isSome)
          (next :: rest) v)) := by
  simp [setWalk, h]

theorem applyLast_obj_set (es : List (String × Value)) (o : Option (List String))
    (last : String) {v : Value} (hv : v.isUndef = false) :
    applyLast (.obj es o) last v =
      .obj (objSetEntry es last v)
        (if hasEntry es last then o
         else
          (match o with
           | some order => some (order ++ [last])
           | none => none)) := by
  simp [applyLast, hv]

theorem applyLast_obj_del (es : List (String × Value)) (o : Option (List String))
    (last : String) :
    applyLast (.obj es o) last .undef =
      .obj (objDeleteEntry es last)
        (if hasEntry es last then
          (match o with
           | some order => some (order.filter (fun k => ¬ k = last))
           | none => none)
         else o) := by
  simp [applyLast, Value.isUndef]

theorem applyLast_arr_set {last : String} {i : Nat} (h : parseArrayIndex last = some i)
    (xs : List Value) {v : Value} (hv : v.isUndef = false) :
    applyLast (.arr xs) last v = .arr (arrSet xs i v) := by
  simp [applyLast, h, hv]

theorem writeOkWalk_last_arr {xs : List Value} {last : String} {isDel : Bool}
    (h : writeOkWalk (.arr xs) [last] isDel = true) :
    isDel = false ∧ ∃ i, parseArrayIndex last = some i := by
  simp only [writeOkWalk, Bool.and_eq_true, Bool.not_eq_true'] at h
  exact ⟨h.1, Option.isSome_iff_exists.mp h.2⟩

theorem writeOkWalk_cons_arr {xs : List Value} {seg next : String} {rest : List String}
    {isDel : Bool} (h : writeOkWalk (.arr xs) (seg :: next :: rest) isDel = true) :
    ∃ i, parseArrayIndex seg = some i ∧
      writeOkWalk (freshOrCopy (arrGet xs i) (parseArrayIndex next).isSome)
        (next :: rest) isDel = true := by
  simp only [writeOkWalk] at h
  cases hps : parseArrayIndex seg with
  | none => rw [hps] at h; cases h
  | some i => rw [hps] at h; exact ⟨i, rfl, h⟩

theorem writeOkWalk_cons_obj {es : List (String × Value)} {o : Option (List String)}
    {seg next : String} {rest : List String} {isDel : Bool}
    (h : writeOkWalk (.obj es o) (seg :: next :: rest) isDel = true) :
    writeOkWalk (freshOrCopy (objGet es seg) (parseArrayIndex next).isSome)
      (next :: rest) isDel = true := by
  simpa only [writeOkWalk] using h

theorem walk_roundtrip (v : Value) :
    ∀ (segs : List String) (cur : Value), cur.isContainer = true →
      writeOkWalk cur segs v.isUndef = true →
      getSegs (setWalk cur segs v) segs = v := by
  intro segs
  induction segs with
  | nil => intro cur _ hw; simp [writeOkWalk] at hw
  | cons seg rest ih =>
    intro cur hc hw
    cases rest with
    | nil =>
      cases cur with
      | arr xs =>
        obtain ⟨hvu, i, hi⟩ := writeOkWalk_last_arr hw
        rw [setWalk_last, applyLast_arr_set hi xs hvu, getSegs_arr_some hi,
          arrGet_arrSet_self, getSegs_nil]
      | obj es o =>
        by_cases hvu : v.isUndef = true
        · obtain rfl := Value.eq_undef_of_isUndef hvu
          rw [setWalk_last, applyLast_obj_del, getSegs_obj_cons,
            objGet_deleteEntry_self, getSegs_nil]
        · have hvu' : v.isUndef = false := by simpa using hvu
          rw [setWalk_last, applyLast_obj_set es o seg hvu', getSegs_obj_cons,
            objGet_setEntry_self, getSegs_nil]
      | undef => simp [Value.isContainer] at hc
      | null => simp [Value.isContainer] at hc
      | bool b => simp [Value.isContainer] at hc
      | num n => simp [Value.isContainer] at hc
      | str s => simp [Value.isContainer] at hc
    | cons next rest' =>
      cases cur with
      | arr xs =>
        obtain ⟨i, hps, hw'⟩ := writeOkWalk_cons_arr hw
        rw [setWalk_arr_cons_some hps, getSegs_arr_some hps, arrGet_arrSet_self]
        exact ih _ (freshOrCopy_isContainer _ _) hw'
      | obj es o =>
        have hw' := writeOkWalk_cons_obj hw
        rw [setWalk_obj_cons, getSegs_obj_cons, objGet_setEntry_self]
        exact ih _ (freshOrCopy_isContainer _ _) hw'
      | undef => simp [Value.isContainer] at hc
      | null => simp [Value.isContainer] at hc
      | bool b => simp [Value.isContainer] at hc
      | num n => simp [Value.isContainer] at hc
      | str s => simp [Value.isContainer] at hc

theorem walk_diverge (v : Value) :
    ∀ (psegs qsegs : List String) (cur : Value), cur.isContainer = true →
      writeOkWalk cur psegs v.isUndef = true →
      divergeSegs psegs qsegs = true →
      getSegs (setWalk cur psegs v) qsegs = getSegs cur qsegs := by
  intro psegs
  induction psegs with
  | nil => intro qsegs cur _ hw _; simp [writeOkWalk] at hw
  | cons seg rest ih =>
    intro qsegs cur hc hw hd
    obtain ⟨q, qs, rfl⟩ : ∃ q qs, qsegs = q :: qs := by
      cases qsegs with
      | nil => simp [divergeSegs] at hd
      | cons q qs => exact ⟨q, qs, rfl⟩
    cases rest with
    | nil =>
      have hne : ¬ seg = q := by
        by_cases hx : seg = q
        · simp [divergeSegs, hx] at hd
        · exact hx
      have hne' : ¬ q = seg := fun hh => hne hh.symm
      cases cur with
      | arr xs =>
        obtain ⟨hvu, i, hi⟩ := writeOkWalk_last_arr hw
        rw [setWalk_last, applyLast_arr_set hi xs hvu]
        cases hq : parseArrayIndex q with
        | none => rw [getSegs_arr_none hq, getSegs_arr_none hq]
        | some j =>
          have hij : ¬ j = i := by
            intro hh
            subst hh
            exact hne (parseArrayIndex_inj hi hq)
          rw [getSegs_arr_some hq, getSegs_arr_some hq, arrGet_arrSet_ne _ _ hij]
      | obj es o =>
        by_cases hvu : v.isUndef = true
        · obtain rfl := Value.eq_undef_of_isUndef hvu
          rw [setWalk_last, applyLast_obj_del, getSegs_obj_cons, getSegs_obj_cons,
            objGet_deleteEntry_ne _ hne']
        · have hvu' : v.isUndef = false := by simpa using hvu
          rw [setWalk_last, applyLast_obj_set es o seg hvu', getSegs_obj_cons,
            getSegs_obj_cons, objGet_setEntry_ne _ _ hne']
      | undef => simp [Value.isContainer] at hc
      | null => simp [Value.isContainer] at hc
      | bool b => simp [Value.isContainer] at hc
      | num n => simp [Value.isContainer] at hc
      | str s => simp [Value.isContainer] at hc
    | cons next rest' =>
      by_cases hpq : seg = q
      · subst hpq
        have hd' : divergeSegs (next :: rest') qs = true := by
          simpa [divergeSegs] using hd
        obtain ⟨q', qs', rfl⟩ : ∃ q' qs', qs = q' :: qs' := by
          cases qs with
          | nil => simp [divergeSegs] at hd'
          | cons q' qs' => exact ⟨q', qs', rfl⟩
        cases cur with
        | arr xs =>
          obtain ⟨i, hps, hw'⟩ := writeOkWalk_cons_arr hw
          rw [setWalk_arr_cons_some hps, getSegs_arr_some hps, getSegs_arr_some hps,
            arrGet_arrSet_self, ih _ _ (freshOrCopy_isContainer _ _) hw' hd']
          by_cases he : (arrGet xs i).isContainer = true
          · rw [freshOrCopy_container_id he]
          · have he' : (arrGet xs i).isContainer = false := by simpa using he
            rw [getSegs_freshOrCopy_flat he', getSegs_nonContainer he']
        | obj es o =>
          have hw' := writeOkWalk_cons_obj hw
          rw [setWalk_obj_cons, getSegs_obj_cons, getSegs_obj_cons,
            objGet_setEntry_self, ih _ _ (freshOrCopy_isContainer _ _) hw' hd']
          by_cases he : (objGet es seg).isContainer = true
          · rw [freshOrCopy_container_id he]
          · have he' : (objGet es seg).isContainer = false := by simpa using he
            rw [getSegs_freshOrCopy_flat he', getSegs_nonContainer he']
        | undef => simp [Value.isContainer] at hc
        | null => simp [Value.isContainer] at hc
        | bool b => simp [Value.isContainer] at hc
        | num n => simp [Value.isContainer] at hc
        | str s => simp [Value.isContainer] at hc
      · have hpq' : ¬ q = seg := fun hh => hpq hh.symm
        cases cur with
        | arr xs =>
          obtain ⟨i, hps, hw'⟩ := writeOkWalk_cons_arr hw
          rw [setWalk_arr_cons_some hps]
          cases hq : parseArrayIndex q with
          | none => rw [getSegs_arr_none hq, getSegs_arr_none hq]
          | some j =>
            have hij : ¬ j = i := by
              intro hh
              subst hh
              exact hpq (parseArrayIndex_inj hps hq)
            rw [getSegs_arr_some hq, getSegs_arr_some hq, arrGet_arrSet_ne _ _ hij]
        | obj es o =>
          rw [setWalk_obj_cons, getSegs_obj_cons, getSegs_obj_cons,
            objGet_setEntry_ne _ _ hpq']
        | undef => simp [Value.isContainer] at hc
        | null => simp [Value.isContainer] at hc
        | bool b => simp [Value.isContainer] at hc
        | num n => simp [Value.isContainer] at hc
        | str s => simp [Value.isContainer] at hc

theorem writeOk_parts {root : Value} {path : String} {isDel : Bool}
    (h : writeOk root path isDel = true) :
    root.isScalar = false ∧ writeOkWalk (copyRoot root) (splitDots path) isDel = true := by
  simpa [writeOk, Bool.and_eq_true, Bool.not_eq_true'] using h

theorem getNestedValue_nonempty {path : String} (h : ¬ path = "") (root : Value) :
    getNestedValue root path = getSegs root (splitDots path) := by
  simp [getNestedValue, h]

theorem setNestedValue_walk {root : Value} {path : String} (v : Value)
    (h : ¬ path = "") (hs : root.isScalar = false) :
    setNestedValue root path v = setWalk (copyRoot root) (splitDots path) v := by
  simp [setNestedValue, h, hs]

theorem getSegs_copyRoot {root : Value} (hs : root.isScalar = false) (s : String)
    (rest : List String) : getSegs (copyRoot root) (s :: rest) = getSegs root (s :: rest) := by
  cases root with
  | undef =>
    rw [show copyRoot Value.undef = Value.obj [] none from rfl, getSegs_objGet_nil]
    rfl
  | null =>
    rw [show copyRoot Value.null = Value.obj [] none from rfl, getSegs_objGet_nil]
    rfl
  | arr xs => rfl
  | obj es o => rfl
  | bool b => simp [Value.isScalar] at hs
  | num n => simp [Value.isScalar] at hs
  | str s => simp [Value.isScalar] at hs

/-! State-preservation lemmas for the notification engine: every variant of
notifyListeners changes, at most, the virtual revision counters. -/

theorem sameExceptRev_refl (a : St) : sameExceptRev a a :=
  ⟨rfl, rfl, rfl, rfl, rfl, rfl⟩

theorem sameExceptRev_trans {a b c : St} (h1 : sameExceptRev a b)
    (h2 : sameExceptRev b c) : sameExceptRev a c := by
  obtain ⟨x1, x2, x3, x4, x5, x6⟩ := h1
  obtain ⟨y1, y2, y3, y4, y5, y6⟩ := h2
  exact ⟨y1.trans x1, y2.trans x2, y3.trans x3, y4.trans x4, y5.trans x5, y6.trans x6⟩

theorem sameExceptRev_bumpVirtual (st : St) (vk : String) :
    sameExceptRev st (bumpVirtual st vk) :=
  ⟨rfl, rfl, rfl, rfl, rfl, rfl⟩

theorem sameExceptRev_notifyVirtualKey (st : St) (vk : String) :
    sameExceptRev st (notifyVirtualKey st vk).1 :=
  sameExceptRev_bumpVirtual st vk

theorem foldl_sameExceptRev {α : Type} (f : (St × List Nat) → α → (St × List Nat))
    (hf : ∀ acc x, sameExceptRev acc.1 (f acc x).1) :
    ∀ (l : List α) (init : St × List Nat), sameExceptRev init.1 (l.foldl f init).1 := by
  intro l
  induction l with
  | nil => intro init; exact sameExceptRev_refl _
  | cons x xs ih =>
    intro init
    exact sameExceptRev_trans (hf init x) (ih (f init x))

theorem sameExceptRev_ite (st : St) (c : Prop) [Decidable c] (a b : St × List Nat)
    (ha : sameExceptRev st a.1) (hb : sameExceptRev st b.1) :
    sameExceptRev st (if c then a else b).1 := by
  by_cases h : c
  · rw [if_pos h]; exact ha
  · rw [if_neg h]; exact hb

theorem virtualPrefixPass_same (st : St) (key : String) :
    sameExceptRev st (virtualPrefixPass st key).1 := by
  unfold virtualPrefixPass
  cases h : isVirtualKey key with
  | true => simp only [h, if_true]; exact sameExceptRev_refl st
  | false =>
    simp only [h, Bool.false_eq_true, if_false]
    exact foldl_sameExceptRev _
      (by
        intro acc x
        cases hm : mapGet acc.1.listeners (joinChildKey x "__juststore_keys") with
        | none => simp only [hm]; exact sameExceptRev_refl _
        | some ls =>
          simp only [hm]
          exact sameExceptRev_ite _ _ _ _ (sameExceptRev_notifyVirtualKey _ _)
            (sameExceptRev_refl _)) _ _

theorem childPass_same (st : St) (key : String) (oldV newV : Value) (forceNotify : Bool) :
    sameExceptRev st (childPass st key oldV newV forceNotify).1 := by
  unfold childPass
  exact foldl_sameExceptRev _
    (by
      intro acc childKey
      by_cases hv : isVirtualKey childKey = true <;>
        simp only [hv, Bool.false_eq_true, if_false, if_true]
      · exact sameExceptRev_ite _ _ _ _ (sameExceptRev_notifyVirtualKey _ _)
          (sameExceptRev_refl _)
      · exact sameExceptRev_ite _ _ _ _ (sameExceptRev_refl _) (sameExceptRev_refl _)) _ _

theorem notifyListeners_same (st : St) (key : String) (oldV newV : Value)
    (skipRoot skipChildren forceNotify : Bool) :
    sameExceptRev st (notifyListeners st key oldV newV skipRoot skipChildren forceNotify).1 := by
  unfold notifyListeners
  by_cases hs : (skipRoot && skipChildren) = true <;>
    simp only [hs, Bool.false_eq_true, if_false, if_true]
  · exact sameExceptRev_ite _ _ _ _ (virtualPrefixPass_same st key)
      (virtualPrefixPass_same st key)
  · by_cases hc : (!skipChildren) = true <;>
      simp only [hc, Bool.false_eq_true, if_false, if_true]
    · exact sameExceptRev_trans (virtualPrefixPass_same st key)
        (childPass_same _ key oldV newV forceNotify)
    · exact virtualPrefixPass_same st key

/-! Map and store lemmas. -/

theorem mapGet_mapSet_self {β : Type} (m : List (String × β)) (k : String) (v : β) :
    mapGet (mapSet m k v) k = some v := by
  induction m with
  | nil => simp [mapGet, mapSet]
  | cons e rest ih =>
    obtain ⟨k', v'⟩ := e
    by_cases h : k' = k <;> simp [mapGet, mapSet, h, ih]

theorem mapHas_mapSet_self {β : Type} (m : List (String × β)) (k : String) (v : β) :
    mapHas (mapSet m k v) k = true := by
  simp [mapHas, mapGet_mapSet_self]

theorem localStorageSet_inMem (st : St) (k : String) (v : Value) :
    (localStorageSet st k v).inMem = st.inMem := by
  unfold localStorageSet
  by_cases h : st.window = true <;> by_cases h2 : v.isUndef = true <;> simp [h, h2]

theorem kvGet_mem_fst (st : St) (key : String) : (kvGet st true key).1 = st := by
  unfold kvGet
  by_cases h : mapHas st.inMem (splitNSPath key).1 = true <;> simp [h]

theorem getSnapshot_mem_fst (st : St) (key : String) :
    (getSnapshot st key true).1 = st := by
  unfold getSnapshot
  by_cases h : isVirtualKey key = true <;> simp [h, kvGet_mem_fst]

theorem kvGet_val_of_has {st : St} {key : String}
    (h : mapHas st.inMem (splitNSPath key).1 = true) (mo mo' : Bool) :
    (kvGet st mo key).2 = (kvGet st mo' key).2 := by
  unfold kvGet
  simp [h]

theorem kvSet_inMem {v : Value} (hv : v.isUndef = false) (st : St) (mo : Bool)
    (key : String) :
    (kvSet st mo key v).inMem =
      mapSet st.inMem (splitNSPath key).1
        (if (splitNSPath key).2 = "" then v
         else
          setNestedValue
            ((nullishOr (mapGet st.inMem (splitNSPath key).1)
              (nullishOr (localStorageGet st (splitNSPath key).1)
                (some (.obj [] none)))).getD (.obj [] none))
            (splitNSPath key).2 v) := by
  unfold kvSet
  simp only [hv, Bool.false_eq_true, if_false]
  split
  · rw [localStorageSet_inMem]
  · rfl

theorem kvSet_has {v : Value} (hv : v.isUndef = false) (st : St) (mo : Bool)
    (key : String) :
    mapHas (kvSet st mo key v).inMem (splitNSPath key).1 = true := by
  rw [kvSet_inMem hv st mo key]
  exact mapHas_mapSet_self _ _ _

/-! Claim theorems. -/

/-- C5, counterexample: the round-trip law fails as universally stated.
With a scalar root, `setNestedValue(5, "a", 1)` is the defensive no-op `5`,
so reading back yields `undefined`, not the written value; and deleting
index "0" of `[1,2,3]` splices, so reading index "0" afterwards yields `2`,
not `undefined`. -/
theorem c5_counterexample :
    getNestedValue (setNestedValue (.num 5) "a" (.num 1)) "a" = .undef ∧
    isEqual .undef (.num 1) = false ∧
    getNestedValue (setNestedValue (.arr [.num 1, .num 2, .num 3]) "0" .undef) "0"
      = .num 2 ∧
    isEqual (.num 2) .undef = false :=
  ⟨rfl, rfl, rfl, rfl⟩

/-- C5, amended: for every root, dot-path and value,
`getNestedValue(setNestedValue(root, path, value), path)` equals `value`
(hence is deep-equal to it, including the `undefined` deletion case)
provided the copy-on-write walk lands the write: the path is empty, or the
root is not a non-null scalar, every array met before the final segment is
indexed by a canonical numeral, and the final container accepts the
operation — always for objects, only for canonical-index assignment (not
deletion, which splices) for arrays. -/
theorem c5_amended (root : Value) (path : String) (v : Value)
    (h : path = "" ∨ writeOk root path v.isUndef = true) :
    getNestedValue (setNestedValue root path v) path = v := by
  by_cases hp : path = ""
  · subst hp
    simp [setNestedValue, getNestedValue]
  · obtain h | h := h
    · exact absurd h hp
    · obtain ⟨hs, hwk⟩ := writeOk_parts h
      rw [setNestedValue_walk v hp hs, getNestedValue_nonempty hp]
      exact walk_roundtrip v _ _ (copyRoot_isContainer hs) hwk

theorem c5_amended_witness :
    writeOk (.obj [] none) "a.b" (Value.num 7).isUndef = true ∧
    getNestedValue (setNestedValue (.obj [] none) "a.b" (.num 7)) "a.b" = .num 7 :=
  ⟨by decide, c5_amended (.obj [] none) "a.b" (.num 7) (Or.inr (by decide))⟩

/-- C9, counterexample: structural sharing fails as universally stated.
Writing at "a.x.1" into `{a: [1, 2]}` hits the array/non-index break in
setNestedValue's walk, which applies the final segment "1" to the array at
"a"; the sub-value at "a.1" — not on the root-to-"a.x.1" path — changes
from 2 to 9. -/
theorem c9_counterexample :
    setNestedValue (.obj [("a", .arr [.num 1, .num 2])] none) "a.x.1" (.num 9)
      = .obj [("a", .arr [.num 1, .num 9])] none ∧
    getNestedValue (.obj [("a", .arr [.num 1, .num 2])] none) "a.1" = .num 2 ∧
    getNestedValue
      (setNestedValue (.obj [("a", .arr [.num 1, .num 2])] none) "a.x.1" (.num 9))
      "a.1" = .num 9 ∧
    isEqual (.num 2) (.num 9) = false :=
  ⟨rfl, rfl, rfl, rfl⟩

/-- C9, amended: after `setNestedValue(root, p, v)`, every position `q`
that diverges from the write path (shares a proper common prefix, then
differs) resolves in the new root to exactly the sub-value it had in the
original root, provided the walk lands the write (no array/non-index break;
deletions end at an object).  In this pure-value model, preservation of the
resolved sub-value is the counterpart of reference identity, and the
original root is intrinsically unmutated. -/
theorem c9_amended (root : Value) (p q : String) (v : Value)
    (hp : ¬ p = "") (hq : ¬ q = "")
    (hw : writeOk root p v.isUndef = true)
    (hd : divergeSegs (splitDots p) (splitDots q) = true) :
    getNestedValue (setNestedValue root p v) q = getNestedValue root q := by
  obtain ⟨hs, hwk⟩ := writeOk_parts hw
  rw [setNestedValue_walk v hp hs, getNestedValue_nonempty hq, getNestedValue_nonempty hq,
    walk_diverge v _ _ _ (copyRoot_isContainer hs) hwk hd]
  obtain ⟨-, hq2⟩ := divergeSegs_nonempty hd
  cases hsd : splitDots q with
  | nil => exact absurd hsd hq2
  | cons q0 qs0 => exact getSegs_copyRoot hs q0 qs0

theorem c9_amended_witness :
    writeOk (.obj [("a", .num 1), ("b", .num 2)] none) "a" (Value.num 9).isUndef = true ∧
    divergeSegs (splitDots "a") (splitDots "b") = true ∧
    getNestedValue
      (setNestedValue (.obj [("a", .num 1), ("b", .num 2)] none) "a" (.num 9)) "b"
      = getNestedValue (.obj [("a", .num 1), ("b", .num 2)] none) "b" :=
  ⟨by decide, by decide,
    c9_amended (.obj [("a", .num 1), ("b", .num 2)] none) "a" "b" (.num 9)
      (by decide) (by decide) (by decide) (by decide)⟩

/-- C6: a produce call (skipUpdate false) whose new value is deep-equal to
the current snapshot performs no write and triggers no listeners — the
state is returned unchanged and the fired list is empty (memory-only
snapshot path, where even the localStorage read-through cache is
untouched).  Consequently, writing the same value twice produces exactly
one notification pass: the second call, whose value deep-equals the stored
snapshot, is a silent no-op. -/
theorem c6_idempotent_write (key : String) (v : Value) :
    (∀ st : St, isEqual (getSnapshot st key true).2 v = true →
      produce st key v false true = (st, [])) ∧
    (∀ (st0 st1 : St) (fired : List Nat), produce st0 key v false true = (st1, fired) →
      isEqual (getSnapshot st1 key true).2 v = true →
      produce st1 key v false true = (st1, [])) := by
  have base : ∀ st : St, isEqual (getSnapshot st key true).2 v = true →
      produce st key v false true = (st, []) := by
    intro st h
    unfold produce
    simp only [Bool.false_eq_true, if_false, h, if_true, getSnapshot_mem_fst]
  exact ⟨base, fun st0 st1 fired _ h => base st1 h⟩

theorem c6_witness :
    isEqual (getSnapshot { emptySt with inMem := [("k", Value.num 1)] } "k" true).2
      (Value.num 1) = true ∧
    produce { emptySt with inMem := [("k", Value.num 1)] } "k" (Value.num 1) false true
      = ({ emptySt with inMem := [("k", Value.num 1)] }, []) :=
  ⟨by decide, (c6_idempotent_write "k" (Value.num 1)).1 _ (by decide)⟩

/-- C10: the durable and the memory-only store instance are two views of
one shared in-memory map (the model has a single `inMem` component, as both
KVStore instances are constructed over the same `inMemStorage`).  For every
key, after a set through either instance the other instance's get returns
the same value, and the in-memory state left behind is identical whichever
instance performed the write — the instances differ only in the
localStorage fallback, persistence, and broadcast side effects. -/
theorem c10_shared_store (st : St) (key : String) (v : Value)
    (hv : v.isUndef = false) :
    (kvGet (kvSet st true key v) false key).2 = (kvGet (kvSet st true key v) true key).2 ∧
    (kvGet (kvSet st false key v) true key).2 = (kvGet (kvSet st false key v) false key).2 ∧
    (kvSet st true key v).inMem = (kvSet st false key v).inMem := by
  refine ⟨?_, ?_, ?_⟩
  · exact kvGet_val_of_has (kvSet_has hv st true key) false true
  · exact kvGet_val_of_has (kvSet_has hv st false key) true false
  · rw [kvSet_inMem hv st true key, kvSet_inMem hv st false key]

theorem c10_witness :
    (Value.num 1).isUndef = false ∧
    (kvGet (kvSet emptySt true "a.b" (.num 1)) false "a.b").2
      = (kvGet (kvSet emptySt true "a.b" (.num 1)) true "a.b").2 :=
  ⟨rfl, (c10_shared_store emptySt "a.b" (.num 1) rfl).1⟩

/-- C1, counterexample: getKeyPrefixes does not return the strict prefixes
strictly between the namespace and the key.  On "ns.a.b.c" it returns
["ns", "ns.b"] — it includes the plain namespace (the final unshift, which
its callers rely on and compensate for), skips the first segment below the
namespace, and "ns.b" is not even a prefix of the key — instead of the
claimed ["ns.a", "ns.a.b"]. -/
theorem c1_counterexample :
    getKeyPrefixes "ns.a.b.c" = ["ns", "ns.b"] ∧
    (["ns", "ns.b"] : List String) ≠ ["ns.a", "ns.a.b"] := by
  exact ⟨by decide, by decide⟩

/-- C1, amended: for a key `ns.p1.….pn` (n ≥ 1), getKeyPrefixes returns
the plain namespace first, followed (for n ≥ 3) by the strings obtained by
joining the namespace with segments p2 … p(n-1) — skipping p1 entirely, so
for n ≥ 3 these are not prefixes of the key (representative inputs shown
for depths 0 through 4 below the namespace). -/
theorem c1_amended :
    getKeyPrefixes "ns" = [] ∧
    getKeyPrefixes "ns.a" = ["ns"] ∧
    getKeyPrefixes "ns.a.b" = ["ns"] ∧
    getKeyPrefixes "ns.a.b.c" = ["ns", "ns.b"] ∧
    getKeyPrefixes "ns.a.b.c.d" = ["ns", "ns.b", "ns.b.c"] := by
  refine ⟨by decide, by decide, by decide, by decide, by decide⟩

/-- C2: evaluation at the failing input.  With a listener (id 0) at the
intermediate ancestor "ns.a" and the store holding `{ns: {a: {b: 1}}}`, the
mutation `produce("ns.a.b", 2)` genuinely changes the value resolved at
"ns.a", yet fires no listener at all: getKeyPrefixes("ns.a.b") = ["ns"]
omits "ns.a", so the ancestor pass never reaches it. -/
theorem c2_code_bug :
    mapGet c2State.listeners "ns.a" = some [0] ∧
    getKeyPrefixes "ns.a.b" = ["ns"] ∧
    isEqual (kvGet c2State true "ns.a").2
      (kvGet (produce c2State "ns.a.b" (.num 2) false true).1 true "ns.a").2 = false ∧
    (produce c2State "ns.a.b" (.num 2) false true).2 = [] := by
  refine ⟨by decide, by decide, by decide, by decide⟩

/-- C3: evaluation at the failing input.  Listeners: 0 at "a", 1 at "a.b",
2 at "a.c"; store: `{a: {x: {c: {d: 0}}, c: 5, b: 10}}`.  A write to "a.b"
notifies exactly listeners 1 ("a.b") and 0 ("a"), not 2 — that half of the
claim holds.  But a write to "a.x.c.d" fires listener 2 although the value
resolved at "a.c" stays 5: the broken getKeyPrefixes lists "a.c" as an
"intermediate ancestor" of "a.x.c.d", and ancestors fire unconditionally —
refuting "notifies a.c only if a diff shows a.c's resolved value
changed". -/
theorem c3_code_bug :
    (produce c3State "a.b" (.num 11) false true).2 = [1, 0] ∧
    getKeyPrefixes "a.x.c.d" = ["a", "a.c"] ∧
    (produce c3State "a.x.c.d" (.num 1) false true).2 = [0, 2] ∧
    isEqual (kvGet c3State true "a.c").2 (.num 5) = true ∧
    isEqual (kvGet (produce c3State "a.x.c.d" (.num 1) false true).1 true "a.c").2
      (.num 5) = true := by
  refine ⟨by decide, by decide, by decide, by decide, by decide⟩

/-- C4, counterexample: with a subscriber (id 0) on the virtual key-set
signal "a.__juststore_keys" and the store holding `{a: {b: 1}}`, the
mutation `produce("a.b", 2)` changes only the value of the existing key
"b" — the stable key list at "a" is ["b"] before and after — yet the
key-set revision is bumped from absent (0) to 1 and the subscriber fires:
the virtual-prefix pass bumps unconditionally. -/
theorem c4_counterexample :
    mapGet c4State.listeners "a.__juststore_keys" = some [0] ∧
    getStableKeys (kvGet c4State true "a").2 = ["b"] ∧
    getStableKeys (kvGet (produce c4State "a.b" (.num 2) false true).1 true "a").2
      = ["b"] ∧
    mapGet c4State.virtualRev "a.__juststore_keys" = none ∧
    mapGet (produce c4State "a.b" (.num 2) false true).1.virtualRev "a.__juststore_keys"
      = some 1 ∧
    (produce c4State "a.b" (.num 2) false true).2 = [0] := by
  refine ⟨by decide, by decide, by decide, by decide, by decide, by decide⟩

/-- C7: the verbatim rename scenario of the repository's test suite.  The
object `{a:0, "1":1, "2":2, "3":3, e:4}`, with its key-order record seeded
to the insertion order (as the test does via setExternalKeyOrder, since JS
enumeration would otherwise reorder the integer-like keys), is stored at
"obj"; renaming "2" → "5" yields stable key order ["a","1","5","3","e"]
and the value `{a:0,"1":1,"5":2,"3":3,e:4}`, and renaming "5" back to "2"
restores the original key order and value. -/
theorem c7_rename_preserves_order :
    getStableKeys (kvGet c7St2 true "obj").2 = ["a", "1", "5", "3", "e"] ∧
    isEqual (kvGet c7St2 true "obj").2
      (.obj [("a", .num 0), ("1", .num 1), ("5", .num 2), ("3", .num 3), ("e", .num 4)]
        none) = true ∧
    getStableKeys (kvGet c7St3 true "obj").2 = ["a", "1", "2", "3", "e"] ∧
    isEqual (kvGet c7St3 true "obj").2 c7Obj = true := by
  refine ⟨by decide, by decide, by decide, by decide⟩

/-- C8, counterexample: a message with an unknown type is NOT fully
ignored.  With a listener (id 0) at "ns" and the memory store holding
`{ns: 1}`, the message `{type: "bogus", key: "ns", value: 1}` leaves the
store untouched, but the handler still calls notifyListeners, which fires
the listener unconditionally — twice, in fact: once as the exact match and
once as the namespace root. -/
theorem c8_counterexample :
    mapGet c8State.listeners "ns" = some [0] ∧
    (onBroadcastMessage c8State ⟨some "bogus", some "ns", .num 1⟩).1.inMem
      = c8State.inMem ∧
    (onBroadcastMessage c8State ⟨some "bogus", some "ns", .num 1⟩).2 = [0, 0] := by
  refine ⟨by decide, rfl, by decide⟩

theorem fireSet_congr {a b : St} (h : b.listeners = a.listeners) (key : String) :
    fireSet b key = fireSet a key := by
  unfold fireSet
  rw [h]

theorem notifyListeners_fires_exact (st : St) (key : String) (oldV newV : Value)
    (forceNotify : Bool) :
    ∀ id ∈ fireSet st key,
      id ∈ (notifyListeners st key oldV newV false false forceNotify).2 := by
  intro id hid
  unfold notifyListeners
  simp only [Bool.false_and, Bool.false_eq_true, if_false, Bool.not_false, if_true]
  have hl : (virtualPrefixPass st key).1.listeners = st.listeners :=
    (virtualPrefixPass_same st key).2.2.2.1
  refine List.mem_append_left _ (List.mem_append_left _ (List.mem_append_right _ ?_))
  rw [fireSet_congr hl]
  exact hid

theorem getStableKeys_obj_single (k : String) (v : Value)
    (hk : parseArrayIndex k = none) :
    getStableKeys (.obj [(k, v)] none) = [k] := by
  simp [getStableKeys, jsKeys, sortCanon, hk]

theorem childPass_single_virtual (st : St) (key childKey : String) (oldV newV : Value)
    (hdi : (mapGet st.descIndex key).getD [] = [childKey])
    (hvk : isVirtualKey childKey = true) (objectPath : String)
    (hop : (if sEndsWith (sDrop childKey (sLen key + 1)) ".__juststore_keys" then
        sDropRight (sDrop childKey (sLen key + 1)) (sLen ".__juststore_keys")
      else "") = objectPath) :
    childPass st key oldV newV false
      = (if (decide ¬ (getStableKeys
            (if objectPath = "" then oldV else getNestedValue oldV objectPath)
          = getStableKeys
            (if objectPath = "" then newV else getNestedValue newV objectPath))) = true
         then ((notifyVirtualKey st childKey).1,
               (notifyVirtualKey st childKey).2)
         else (st, [])) := by
  unfold childPass
  rw [hdi]
  simp only [List.foldl_cons, List.foldl_nil, hvk, if_true, hop, Bool.false_or,
    List.nil_append]

theorem notifyListeners_noroot_assemble (st : St) (key : String) (oldV newV : Value)
    (hvp : virtualPrefixPass st key = (st, []))
    (hex : fireSet st key = [])
    (hroot : fireSet st (getNamespace key) = [])
    (hpfx : (getKeyPrefixes key).foldl
      (fun acc pfx => if pfx = getNamespace key then acc else acc ++ fireSet st pfx)
      [] = []) :
    notifyListeners st key oldV newV false false false
      = childPass st key oldV newV false := by
  unfold notifyListeners
  rw [hvp]
  simp only [Bool.false_and, Bool.false_eq_true, if_false, Bool.not_false, if_true,
    hex, hroot, hpfx, List.nil_append, List.append_nil]

/-- C4, amended: virtual key-set signals are NOT gated on structural change
in general.  (a) Whenever a produce mutation at a key K (here "a.b")
passes the equality short-circuit, every virtual signal at K or at an entry
of getKeyPrefixes(K) with subscribers is bumped unconditionally — in
particular a pure value change of an existing key directly under the
namespace bumps the namespace's key-set revision, with the stable key list
provably unchanged.  (b) Only virtual signals reached through the
descendant index — mutations at a strict ancestor of the signal's path —
are gated: a produce at "a" with a subscriber on "a.b.__juststore_keys"
bumps that revision if and only if the stable key list of the value at
"a.b" changed. -/
theorem c4_amended :
    (∀ (b bNew : Value), isEqual b bNew = false → bNew.isUndef = false →
      (produce (c4ValueState b) "a.b" bNew false true).2 = [0] ∧
      mapGet (produce (c4ValueState b) "a.b" bNew false true).1.virtualRev
        "a.__juststore_keys" = some 1 ∧
      getStableKeys (kvGet (c4ValueState b) true "a").2 = ["b"] ∧
      getStableKeys (kvGet (produce (c4ValueState b) "a.b" bNew false true).1 true
        "a").2 = ["b"]) ∧
    (∀ (rootOld rootNew : Value), isEqual rootOld rootNew = false →
      rootNew.isUndef = false →
      (getStableKeys (getNestedValue rootOld "b")
          = getStableKeys (getNestedValue rootNew "b") →
        (produce (c4AncestorState rootOld) "a" rootNew false true).2 = [] ∧
        mapGet (produce (c4AncestorState rootOld) "a" rootNew false true).1.virtualRev
          "a.b.__juststore_keys" = none) ∧
      (¬ getStableKeys (getNestedValue rootOld "b")
          = getStableKeys (getNestedValue rootNew "b") →
        (produce (c4AncestorState rootOld) "a" rootNew false true).2 = [7] ∧
        mapGet (produce (c4AncestorState rootOld) "a" rootNew false true).1.virtualRev
          "a.b.__juststore_keys" = some 1)) := by
  constructor
  · intro b bNew heq hbu
    have hsetv : setNestedValue (.obj [("b", b)] none) "b" bNew
        = .obj [("b", bNew)] none := by
      rw [show setNestedValue (.obj [("b", b)] none) "b" bNew
          = applyLast (.obj [("b", b)] none) "b" bNew from rfl,
        applyLast_obj_set _ _ _ hbu]
      rfl
    have hupd : updateSnapshot (c4ValueState b) "a.b" bNew true
        = { c4ValueState b with inMem := [("a", .obj [("b", bNew)] none)] } := by
      rw [show updateSnapshot (c4ValueState b) "a.b" bNew true
          = (if bNew.isUndef = true then kvDelete (c4ValueState b) true "a.b"
             else { c4ValueState b with
                inMem := [("a", setNestedValue (.obj [("b", b)] none) "b" bNew)] })
        from rfl]
      simp only [hbu, Bool.false_eq_true, if_false, hsetv]
    have hprod : produce (c4ValueState b) "a.b" bNew false true
        = (⟨[("a", .obj [("b", bNew)] none)], [], false,
            [("a.__juststore_keys", [0])], [("a", ["a.__juststore_keys"])],
            [("a.__juststore_keys", 1)], []⟩, [0]) := by
      rw [show produce (c4ValueState b) "a.b" bNew false true
          = (if isEqual b bNew = true then (c4ValueState b, [])
             else notifyListeners (updateSnapshot (c4ValueState b) "a.b" bNew true)
               "a.b" b bNew false false false) from rfl]
      simp only [heq, Bool.false_eq_true, if_false, hupd]
      rfl
    rw [hprod]
    refine ⟨rfl, rfl, ?_, ?_⟩
    · rw [show (kvGet (c4ValueState b) true "a").2 = Value.obj [("b", b)] none from rfl]
      exact getStableKeys_obj_single "b" b rfl
    · rw [show (kvGet ((⟨[("a", Value.obj [("b", bNew)] none)], [], false,
          [("a.__juststore_keys", [0])], [("a", ["a.__juststore_keys"])],
          [("a.__juststore_keys", 1)], []⟩ : St), ([0] : List Nat)).1 true "a").2
          = Value.obj [("b", bNew)] none from rfl]
      exact getStableKeys_obj_single "b" bNew rfl
  · intro rootOld rootNew heq hnu
    have hupd : updateSnapshot (c4AncestorState rootOld) "a" rootNew true
        = { c4AncestorState rootOld with inMem := [("a", rootNew)] } := by
      rw [show updateSnapshot (c4AncestorState rootOld) "a" rootNew true
          = (if rootNew.isUndef = true then kvDelete (c4AncestorState rootOld) true "a"
             else { c4AncestorState rootOld with inMem := [("a", rootNew)] })
        from rfl]
      simp only [hnu, Bool.false_eq_true, if_false]
    have hprod : produce (c4AncestorState rootOld) "a" rootNew false true
        = notifyListeners
            { c4AncestorState rootOld with inMem := [("a", rootNew)] }
            "a" rootOld rootNew false false false := by
      rw [show produce (c4AncestorState rootOld) "a" rootNew false true
          = (if isEqual rootOld rootNew = true then (c4AncestorState rootOld, [])
             else notifyListeners
               (updateSnapshot (c4AncestorState rootOld) "a" rootNew true)
               "a" rootOld rootNew false false false) from rfl]
      simp only [heq, Bool.false_eq_true, if_false, hupd]
    have hassemble : notifyListeners
        { c4AncestorState rootOld with inMem := [("a", rootNew)] }
        "a" rootOld rootNew false false false
        = childPass { c4AncestorState rootOld with inMem := [("a", rootNew)] }
            "a" rootOld rootNew false :=
      notifyListeners_noroot_assemble _ "a" rootOld rootNew rfl rfl rfl rfl
    have hcp := childPass_single_virtual
      { c4AncestorState rootOld with inMem := [("a", rootNew)] }
      "a" "a.b.__juststore_keys" rootOld rootNew rfl (by decide) "b" (by decide)
    rw [hprod, hassemble, hcp]
    have hob : (("b" : String) = "") = False := by simp
    simp only [hob, if_false]
    constructor
    · intro hkeys
      have hc : (decide ¬ (getStableKeys (getNestedValue rootOld "b")
          = getStableKeys (getNestedValue rootNew "b"))) = false := by
        simp [hkeys]
      simp only [hc, Bool.false_eq_true, if_false]
      exact ⟨by trivial, by trivial⟩
    · intro hkeys
      have hc : (decide ¬ (getStableKeys (getNestedValue rootOld "b")
          = getStableKeys (getNestedValue rootNew "b"))) = true := by
        simp [hkeys]
      simp only [hc, if_true]
      exact ⟨by trivial, by trivial⟩

theorem c4_amended_witness :
    isEqual (Value.num 1) (Value.num 2) = false ∧
    (Value.num 2).isUndef = false ∧
    (produce (c4ValueState (.num 1)) "a.b" (.num 2) false true).2 = [0] :=
  ⟨by decide, rfl,
    (c4_amended.1 (.num 1) (.num 2) (by decide) rfl).1⟩

/-- C8, amended: an inbound broadcast message whose key field is absent (or
empty, which is equally falsy) is ignored entirely — state unchanged, no
listeners.  A message with an unrecognized type leaves the store map
untouched, but is NOT otherwise ignored: the handler still runs the
notification pass at the message's key with the message's value as the new
root, so in particular every listener registered exactly at that key is
invoked. -/
theorem c8_amended :
    (∀ (st : St) (msg : BMsg), msg.key = none → onBroadcastMessage st msg = (st, [])) ∧
    (∀ (st : St) (msg : BMsg), msg.key = some "" →
      onBroadcastMessage st msg = (st, [])) ∧
    (∀ (st : St) (msg : BMsg) (k : String), msg.key = some k → ¬ k = "" →
      ¬ msg.mtype = some "set" → ¬ msg.mtype = some "delete" →
      (onBroadcastMessage st msg).1.inMem = st.inMem ∧
      ∀ id ∈ fireSet st k, id ∈ (onBroadcastMessage st msg).2) := by
  refine ⟨?_, ?_, ?_⟩
  · intro st msg h
    unfold onBroadcastMessage
    rw [h]
  · intro st msg h
    unfold onBroadcastMessage
    rw [h]
    rfl
  · intro st msg k hk hk' hset hdel
    unfold onBroadcastMessage
    rw [hk]
    simp only [hk', if_neg, if_false, hset, hdel, Bool.false_eq_true]
    rw [kvGet_mem_fst st k]
    constructor
    · exact (notifyListeners_same st k (kvGet st true k).2 msg.value false false false).1
    · exact notifyListeners_fires_exact st k (kvGet st true k).2 msg.value false

theorem c8_amended_witness :
    ((⟨some "bogus", some "ns", Value.num 1⟩ : BMsg).key = some "ns") ∧
    (¬ ("ns" : String) = "") ∧
    (onBroadcastMessage c8State ⟨some "bogus", some "ns", .num 1⟩).1.inMem
      = c8State.inMem ∧
    (0 ∈ (onBroadcastMessage c8State ⟨some "bogus", some "ns", .num 1⟩).2) :=
  ⟨rfl, by decide,
    (c8_amended.2.2 c8State ⟨some "bogus", some "ns", .num 1⟩ "ns" rfl (by decide)
      (by decide) (by decide)).1,
    (c8_amended.2.2 c8State ⟨some "bogus", some "ns", .num 1⟩ "ns" rfl (by decide)
      (by decide) (by decide)).2 0 (by decide)⟩

end JustStore
